import Mathlib

/-!
Verification of the SwiftAuth TOTP core (`src/utils/generateTotp.js`).

The generator is embedded shallowly: bytes are `Nat` values below 256,
32-bit machine arithmetic is `Nat` arithmetic reduced `% 2^32`, strings are
`String`/`List Char`, and the asynchronous fallible pipeline is an
`Except TotpError String` value.  `generateTotp` takes the wall-clock time
(whole Unix seconds) as an explicit argument, since the source reads it
exactly once at the top of the call.

Two collaborators of the core are not part of the repository's sources and
are modelled here:
* the WebCrypto keyed hash (`crypto.subtle.importKey`/`sign` with
  `{ name: 'HMAC', hash: 'SHA-1' }`) is modelled as RFC 2104 HMAC over
  FIPS 180-1 SHA-1 (`sha1`, `hmacSha1` below), validated against the
  published SHA-1 and HMAC-SHA-1 test vectors;
* `decodeBase32` from `@std/encoding/base32` is modelled from the
  specification's §4.1 (RFC 4648 base32, `DecodeError` on characters
  outside `A–Z2–7=`, zero decoded bytes folded into `DecodeError` per §7).
-/

set_option maxRecDepth 1000000
set_option maxHeartbeats 1000000

/-- Rotate a 32-bit word (a `Nat` below `2^32`) left by `n` bits. -/
def rotl (n x : Nat) : Nat := ((x <<< n) ||| (x >>> (32 - n))) % 4294967296

/-- SHA-1 round function `f_t` (FIPS 180-1, §5). -/
def shaF (t b c d : Nat) : Nat :=
  if t < 20 then (b &&& c) ||| ((b ^^^ 4294967295) &&& d)
  else if t < 40 then b ^^^ c ^^^ d
  else if t < 60 then (b &&& c) ||| (b &&& d) ||| (c &&& d)
  else b ^^^ c ^^^ d

/-- SHA-1 round constant `K_t` (FIPS 180-1, §5). -/
def shaK (t : Nat) : Nat :=
  if t < 20 then 1518500249 else if t < 40 then 1859775393
  else if t < 60 then 2400959708 else 3395469782

/-- The five 32-bit chaining words of the SHA-1 state. -/
structure Sha1State where
  a : Nat
  b : Nat
  c : Nat
  d : Nat
  e : Nat

/-- Group a byte list into big-endian 32-bit words. -/
def chunkWords : List Nat → List Nat
  | b0 :: b1 :: b2 :: b3 :: rest =>
    (((b0 * 256 + b1) * 256 + b2) * 256 + b3) :: chunkWords rest
  | _ => []

/-- Extend the 16-word block to the 80-word message schedule (`fuel` = 64). -/
def sha1Extend : Nat → List Nat → List Nat
  | 0, w => w
  | n+1, w =>
    let len := w.length
    sha1Extend n (w ++ [rotl 1 ((w.getD (len-3) 0) ^^^ (w.getD (len-8) 0) ^^^
      (w.getD (len-14) 0) ^^^ (w.getD (len-16) 0))])

/-- The 80 SHA-1 rounds over the message schedule. -/
def sha1Rounds : Nat → List Nat → Sha1State → Sha1State
  | _, [], st => st
  | t, w :: ws, ⟨a, b, c, d, e⟩ =>
    sha1Rounds (t+1) ws
      ⟨(rotl 5 a + shaF t b c d + e + shaK t + w) % 4294967296, a, rotl 30 b, c, d⟩

/-- One SHA-1 compression step over a 64-byte block. -/
def sha1Compress (st : Sha1State) (block : List Nat) : Sha1State :=
  let r := sha1Rounds 0 (sha1Extend 64 (chunkWords block)) st
  ⟨(st.a + r.a) % 4294967296, (st.b + r.b) % 4294967296, (st.c + r.c) % 4294967296,
   (st.d + r.d) % 4294967296, (st.e + r.e) % 4294967296⟩

/-- Fold the compression function over `n` consecutive 64-byte blocks. -/
def sha1Blocks : Nat → List Nat → Sha1State → Sha1State
  | 0, _, st => st
  | n+1, bytes, st => sha1Blocks n (bytes.drop 64) (sha1Compress st (bytes.take 64))

/-- Big-endian bytes of a 32-bit word. -/
def wordBytes (w : Nat) : List Nat :=
  [(w >>> 24) &&& 255, (w >>> 16) &&& 255, (w >>> 8) &&& 255, w &&& 255]

/-- Big-endian 8-byte encoding of the 64-bit message bit length. -/
def lenBytes8 (n : Nat) : List Nat :=
  wordBytes ((n >>> 32) &&& 4294967295) ++ wordBytes (n &&& 4294967295)

/-- Modelled from the spec: the SHA-1 hash variant of the external
`KeyedHashEngine` collaborator (FIPS 180-1); 20-byte digest. -/
def sha1 (msg : List Nat) : List Nat :=
  let padded := msg ++ 128 :: List.replicate ((119 - (msg.length % 64)) % 64) 0
    ++ lenBytes8 (8 * msg.length)
  let st := sha1Blocks (padded.length / 64) padded
    ⟨1732584193, 4023233417, 2562383102, 271733878, 3285377520⟩
  wordBytes st.a ++ wordBytes st.b ++ wordBytes st.c ++ wordBytes st.d ++ wordBytes st.e

/-- Modelled from the spec: the external keyed-hash collaborator
(`crypto.subtle.sign('HMAC', ...)`) for the SHA-1 variant, i.e. RFC 2104
HMAC with a 64-byte block size. -/
def hmacSha1 (key msg : List Nat) : List Nat :=
  let k0 := if key.length > 64 then sha1 key else key
  let k := k0 ++ List.replicate (64 - k0.length) 0
  sha1 ((k.map (fun b => b ^^^ 92)) ++ sha1 ((k.map (fun b => b ^^^ 54)) ++ msg))

/-- The RFC 4648 base32 alphabet `A–Z2–7`. -/
def isBase32Char (c : Char) : Prop := ('A' ≤ c ∧ c ≤ 'Z') ∨ ('2' ≤ c ∧ c ≤ '7')

instance (c : Char) : Decidable (isBase32Char c) := by
  unfold isBase32Char; infer_instance

/-- 5-bit value of a base32 alphabet character, `none` outside `A–Z2–7`. -/
def b32Val (c : Char) : Option Nat :=
  if 'A' ≤ c ∧ c ≤ 'Z' then some (c.toNat - 65)
  else if '2' ≤ c ∧ c ≤ '7' then some (c.toNat - 24)
  else none

/-- Modelled from the spec: bit-accumulating base32 decoding loop of the
external `decodeBase32` (`@std/encoding/base32`).  `acc` holds `nbits`
pending bits; each alphabet character contributes 5 bits, a full byte is
emitted as soon as 8 bits are available, `'='` contributes nothing, and any
other character fails the decode. -/
def b32DecodeLoop : List Char → Nat → Nat → Option (List Nat)
  | [], _, _ => some []
  | ch :: cs, acc, nbits =>
    if ch = '=' then b32DecodeLoop cs acc nbits
    else match b32Val ch with
      | none => none
      | some v =>
        let acc2 := acc * 32 + v
        let nb2 := nbits + 5
        if nb2 ≥ 8 then
          match b32DecodeLoop cs (acc2 % 2 ^ (nb2 - 8)) (nb2 - 8) with
          | none => none
          | some bs => some ((acc2 >>> (nb2 - 8)) :: bs)
        else
          b32DecodeLoop cs acc2 nb2

/-- ASCII upper-casing of one character (`String.prototype.toUpperCase`). -/
def jsToUpper (c : Char) : Char :=
  if 'a' ≤ c ∧ c ≤ 'z' then Char.ofNat (c.toNat - 32) else c

/-- Source lines 15–22: upper-case the secret and pad it with `'='` to the
next multiple-of-8 length. -/
def normalizeSecret (secret : String) : List Char :=
  let up := secret.data.map jsToUpper
  if up.length % 8 ≠ 0 then up ++ List.replicate (8 - up.length % 8) '=' else up

/-- The error taxonomy of the specification (§7). -/
inductive TotpError where
  | decodeError
  | unsupportedAlgorithm
  | invalidParameter
deriving DecidableEq

/-- Secret decoding: normalization (source lines 15–22), the modelled
`decodeBase32` (source line 24), and the zero-byte-key failure of
`crypto.subtle.importKey` (source line 27), which the specification folds
into `DecodeError`. -/
def decodeSecret (secret : String) : Except TotpError (List Nat) :=
  match b32DecodeLoop (normalizeSecret secret) 0 0 with
  | none => .error .decodeError
  | some [] => .error .decodeError
  | some key => .ok key

/-- Source line 7: `Math.floor(unixTimestamp / period)`. -/
def timeStepCounter (time period : Nat) : Nat := time / period

/-- Source lines 10–12: the 8-byte buffer with the counter written by
`setUint32(4, time, false)` (value taken mod `2^32`, big-endian). -/
def timeBytesOf (time : Nat) : List Nat :=
  let t := time % 4294967296
  [0, 0, 0, 0, (t >>> 24) &&& 255, (t >>> 16) &&& 255, (t >>> 8) &&& 255, t &&& 255]

/-- `DataView.getUint32(i)` big-endian: the unsigned 32-bit value of the
four bytes starting at index `i`. -/
def getUint32BE (bytes : List Nat) (i : Nat) : Nat :=
  bytes.getD i 0 * 16777216 + bytes.getD (i+1) 0 * 65536 +
    bytes.getD (i+2) 0 * 256 + bytes.getD (i+3) 0

/-- Source lines 32–34: dynamic truncation — offset from the low nibble of
the last digest byte, 32-bit big-endian read, most significant bit cleared. -/
def dynamicTruncate (digest : List Nat) : Nat :=
  let offset := digest.getLastD 0 &&& 15
  getUint32BE digest offset &&& 2147483647

/-- Decimal digit character for `n ≤ 9` (JS number-to-string digits). -/
def digitChar : Nat → Char
  | 0 => '0' | 1 => '1' | 2 => '2' | 3 => '3' | 4 => '4'
  | 5 => '5' | 6 => '6' | 7 => '7' | 8 => '8' | _ => '9'

/-- Fuel-driven decimal rendering (most significant digit first). -/
def natToDecimalAux : Nat → Nat → List Char
  | 0, _ => []
  | fuel+1, n =>
    if n < 10 then [digitChar n]
    else natToDecimalAux fuel (n / 10) ++ [digitChar (n % 10)]

/-- JS `String(n)` for a non-negative integer: decimal, no leading zeros. -/
def natToDecimal (n : Nat) : List Char := natToDecimalAux (n + 1) n

/-- JS `s.slice(-d)` on a character list: the last `d` characters, the whole
list when `d = 0` (because `slice(-0)` is `slice(0)`) or when `d` exceeds
the length. -/
def jsSliceNeg (d : Nat) (l : List Char) : List Char :=
  if d = 0 then l else l.drop (l.length - d)

/-- The `'000000'` literal of source line 37. -/
def sixZeros : List Char := ['0', '0', '0', '0', '0', '0']

/-- Source lines 34–37: `binary = (P & 0x7fffffff) % 1000000` is already
applied to the truncated value `p`; this formats
`('000000' + binary).slice(-digits)`. -/
def otpFormat (p digits : Nat) : String :=
  String.mk (jsSliceNeg digits (sixZeros ++ natToDecimal (p % 1000000)))

/-- The embedded `generateTotp` (source lines 4–39): pure function of
`(algorithm, secret, digits, period, time)`.  The `algorithm` argument is
accepted and — exactly as in the source — never used. -/
def generateTotp (algorithm secret : String) (digits period time : Nat) :
    Except TotpError String :=
  let timeStep := timeStepCounter time period
  let timeBuffer := timeBytesOf timeStep
  match decodeSecret secret with
  | .error e => .error e
  | .ok key => .ok (otpFormat (dynamicTruncate (hmacSha1 key timeBuffer)) digits)

/-- Base32 encoding of the ASCII secret `"12345678901234567890"` used by
the end-to-end vectors (§8). -/
def rfcSecretBase32 : String := "GEZDGNBVGY3TQOJQGEZDGNBVGY3TQOJQ"

/-- Big-endian value of a byte sequence. -/
def beValue (bytes : List Nat) : Nat := bytes.foldl (fun a b => 256 * a + b) 0

/-- Numeric value of one decimal digit character. -/
def decDigit (c : Char) : Nat := c.toNat - 48

/-- Value of a decimal digit string (most significant digit first). -/
def decValue (s : List Char) : Nat := s.foldl (fun a c => 10 * a + decDigit c) 0

/-- Left-pad a character list with `'0'` to length `d`. -/
def leftPadZero (d : Nat) (s : List Char) : List Char :=
  List.replicate (d - s.length) '0' ++ s

/-- `t` lies in the `k`-th period bucket `[k * p, (k+1) * p)`. -/
def inBucket (p k t : Nat) : Prop := k * p ≤ t ∧ t < (k + 1) * p

instance (p k t : Nat) : Decidable (inBucket p k t) := by
  unfold inBucket; infer_instance

/-- `c` is one of the ten decimal digit characters. -/
def isDigitChar (c : Char) : Prop := ∃ k, k ≤ 9 ∧ c = digitChar k

/-! ### Supporting lemmas -/

lemma and255_eq_mod (x : Nat) : x &&& 255 = x % 2 ^ 8 := by
  have h : (255 : Nat) = 2 ^ 8 - 1 := by norm_num
  rw [h, Nat.and_pow_two_sub_one_eq_mod]

lemma digitChar_isDigit {k : Nat} (h : k ≤ 9) : (digitChar k).isDigit = true := by
  interval_cases k <;> rfl

lemma decDigit_digitChar {k : Nat} (h : k ≤ 9) : decDigit (digitChar k) = k := by
  interval_cases k <;> rfl

lemma isDigitChar_isDigit {c : Char} (h : isDigitChar c) : c.isDigit = true := by
  obtain ⟨k, hk, rfl⟩ := h
  exact digitChar_isDigit hk

lemma zeroChar_isDigitChar : isDigitChar '0' := ⟨0, by omega, rfl⟩

@[simp] lemma decValue_nil : decValue [] = 0 := rfl

lemma decValue_foldl (a : Nat) (l : List Char) :
    l.foldl (fun x c => 10 * x + decDigit c) a = a * 10 ^ l.length + decValue l := by
  induction l generalizing a with
  | nil => simp [decValue]
  | cons c cs ih =>
    show cs.foldl _ (10 * a + decDigit c) = _
    rw [ih (10 * a + decDigit c)]
    have hcons : decValue (c :: cs) = decDigit c * 10 ^ cs.length + decValue cs := by
      show cs.foldl _ (10 * 0 + decDigit c) = _
      rw [ih (10 * 0 + decDigit c)]
      ring
    rw [hcons, List.length_cons]
    ring

lemma decValue_cons (c : Char) (cs : List Char) :
    decValue (c :: cs) = decDigit c * 10 ^ cs.length + decValue cs := by
  show cs.foldl _ (10 * 0 + decDigit c) = _
  rw [decValue_foldl]
  ring

lemma decValue_append (s t : List Char) :
    decValue (s ++ t) = decValue s * 10 ^ t.length + decValue t := by
  show (s ++ t).foldl _ 0 = _
  rw [List.foldl_append, decValue_foldl]
  rfl

lemma decValue_snoc (s : List Char) (c : Char) :
    decValue (s ++ [c]) = 10 * decValue s + decDigit c := by
  rw [decValue_append, decValue_cons]
  simp
  ring

lemma decValue_replicate_zero (k : Nat) :
    decValue (List.replicate k '0') = 0 := by
  induction k with
  | zero => rfl
  | succ k ih =>
    rw [List.replicate_succ, decValue_cons, ih]
    simp [decDigit]

lemma decValue_lt (s : List Char) (h : ∀ c ∈ s, isDigitChar c) :
    decValue s < 10 ^ s.length := by
  induction s using List.reverseRecOn with
  | nil => simp
  | append_singleton s c ih =>
    rw [decValue_snoc, List.length_append]
    have hs : decValue s < 10 ^ s.length := by
      apply ih
      intro x hx
      exact h x (List.mem_append_left _ hx)
    have hc : decDigit c ≤ 9 := by
      obtain ⟨k, hk, rfl⟩ := h c (by simp)
      rw [decDigit_digitChar hk]; exact hk
    have hpow : (10 : Nat) ^ (s.length + 1) = 10 * 10 ^ s.length := by ring
    simp only [List.length_singleton, hpow]
    omega

lemma decValue_ext : ∀ s t : List Char, (∀ c ∈ s, isDigitChar c) →
    (∀ c ∈ t, isDigitChar c) → s.length = t.length →
    decValue s = decValue t → s = t := by
  intro s
  induction s using List.reverseRecOn with
  | nil =>
    intro t _ _ hlen _
    cases t with
    | nil => rfl
    | cons d ds => simp at hlen
  | append_singleton s c ih =>
    intro t hs ht hlen hv
    induction t using List.reverseRecOn with
    | nil => simp at hlen
    | append_singleton u d _ =>
      have hlen' : s.length = u.length := by
        simp only [List.length_append, List.length_singleton] at hlen
        omega
      rw [decValue_snoc, decValue_snoc] at hv
      obtain ⟨k, hk, hck⟩ := hs c (by simp)
      obtain ⟨k', hk', hdk⟩ := ht d (by simp)
      have hc9 : decDigit c ≤ 9 := by rw [hck, decDigit_digitChar hk]; exact hk
      have hd9 : decDigit d ≤ 9 := by rw [hdk, decDigit_digitChar hk']; exact hk'
      have hdd : decDigit c = decDigit d := by omega
      have hvv : decValue s = decValue u := by omega
      have hcd : c = d := by
        rw [hck, hdk]
        rw [hck, hdk, decDigit_digitChar hk, decDigit_digitChar hk'] at hdd
        rw [hdd]
      rw [hcd]
      congr 1
      apply ih u (fun x hx => hs x (List.mem_append_left _ hx))
        (fun x hx => ht x (List.mem_append_left _ hx)) hlen' hvv

lemma natToDecimalAux_congr : ∀ (f1 f2 n : Nat), n < f1 → n < f2 →
    natToDecimalAux f1 n = natToDecimalAux f2 n := by
  intro f1
  induction f1 with
  | zero => intro f2 n h1 _; omega
  | succ f ih =>
    intro f2 n h1 h2
    cases f2 with
    | zero => omega
    | succ f2 =>
      show (if n < 10 then _ else _) = (if n < 10 then _ else _)
      by_cases h : n < 10
      · simp [h]
      · simp only [if_neg h]
        have hd : n / 10 < n := Nat.div_lt_self (by omega) (by omega)
        rw [ih f2 (n / 10) (by omega) (by omega)]

lemma natToDecimal_lt10 {n : Nat} (h : n < 10) : natToDecimal n = [digitChar n] := by
  simp [natToDecimal, natToDecimalAux, h]

lemma natToDecimal_ge10 {n : Nat} (h : 10 ≤ n) :
    natToDecimal n = natToDecimal (n / 10) ++ [digitChar (n % 10)] := by
  show natToDecimalAux (n + 1) n = _
  have h1 : natToDecimalAux (n + 1) n =
      natToDecimalAux n (n / 10) ++ [digitChar (n % 10)] := by
    show (if n < 10 then _ else natToDecimalAux n (n / 10) ++ _) = _
    simp [Nat.not_lt.mpr h]
  rw [h1]
  have hd : n / 10 < n := Nat.div_lt_self (by omega) (by omega)
  rw [natToDecimalAux_congr n (n / 10 + 1) (n / 10) hd (by omega)]
  rfl

lemma decValue_natToDecimal (n : Nat) : decValue (natToDecimal n) = n := by
  induction n using Nat.strong_induction_on with
  | _ n ih =>
    by_cases h : n < 10
    · rw [natToDecimal_lt10 h, decValue_cons]
      simp [decDigit_digitChar (by omega : n ≤ 9)]
    · rw [natToDecimal_ge10 (by omega), decValue_snoc]
      rw [ih (n / 10) (Nat.div_lt_self (by omega) (by omega))]
      rw [decDigit_digitChar (by omega : n % 10 ≤ 9)]
      omega

lemma natToDecimal_digits (n : Nat) : ∀ c ∈ natToDecimal n, isDigitChar c := by
  induction n using Nat.strong_induction_on with
  | _ n ih =>
    by_cases h : n < 10
    · rw [natToDecimal_lt10 h]
      intro c hc
      simp at hc
      exact ⟨n, by omega, hc⟩
    · rw [natToDecimal_ge10 (by omega)]
      intro c hc
      rcases List.mem_append.mp hc with hc | hc
      · exact ih (n / 10) (Nat.div_lt_self (by omega) (by omega)) c hc
      · simp at hc
        exact ⟨n % 10, by omega, hc⟩

lemma natToDecimal_length_pos (n : Nat) : 1 ≤ (natToDecimal n).length := by
  by_cases h : n < 10
  · rw [natToDecimal_lt10 h]; simp
  · rw [natToDecimal_ge10 (by omega)]; simp

lemma natToDecimal_length_le : ∀ n k : Nat, 1 ≤ k → n < 10 ^ k →
    (natToDecimal n).length ≤ k := by
  intro n
  induction n using Nat.strong_induction_on with
  | _ n ih =>
    intro k hk hlt
    by_cases h : n < 10
    · rw [natToDecimal_lt10 h]
      simpa using hk
    · have hk2 : 2 ≤ k := by
        rcases Nat.lt_or_ge k 2 with hc | hc
        · interval_cases k <;> omega
        · exact hc
      rw [natToDecimal_ge10 (by omega), List.length_append]
      have hdivlt : n / 10 < 10 ^ (k - 1) := by
        rw [Nat.div_lt_iff_lt_mul (by omega : 0 < 10)]
        calc n < 10 ^ k := hlt
          _ = 10 ^ (k - 1) * 10 := by
            rw [← pow_succ]
            congr 1
            omega
      have := ih (n / 10) (Nat.div_lt_self (by omega) (by omega))
        (k - 1) (by omega) hdivlt
      simp only [List.length_singleton]
      omega

lemma decValue_drop (s : List Char) (k : Nat) (h : ∀ c ∈ s, isDigitChar c) :
    decValue (List.drop k s) = decValue s % 10 ^ (List.drop k s).length := by
  have h1 : decValue s =
      decValue (List.take k s) * 10 ^ (List.drop k s).length +
        decValue (List.drop k s) := by
    conv_lhs => rw [← List.take_append_drop k s]
    rw [decValue_append]
  have hlt : decValue (List.drop k s) < 10 ^ (List.drop k s).length :=
    decValue_lt _ (fun c hc => h c (List.mem_of_mem_drop hc))
  rw [h1, Nat.add_comm, Nat.add_mul_mod_self_right, Nat.mod_eq_of_lt hlt]

lemma otpS_digits (b : Nat) : ∀ c ∈ sixZeros ++ natToDecimal b, isDigitChar c := by
  intro c hc
  rcases List.mem_append.mp hc with hc | hc
  · simp [sixZeros] at hc
    rw [hc]
    exact zeroChar_isDigitChar
  · exact natToDecimal_digits b c hc

lemma decValue_otpS (b : Nat) : decValue (sixZeros ++ natToDecimal b) = b := by
  rw [decValue_append, decValue_natToDecimal]
  have h0 : decValue sixZeros = 0 := by decide
  rw [h0]
  ring

lemma otpFormat_shape (p digits : Nat) (h1 : 1 ≤ digits) (h7 : digits ≤ 7) :
    (otpFormat p digits).length = digits ∧
    ∀ c ∈ (otpFormat p digits).data, c.isDigit = true := by
  unfold otpFormat
  have hpos := natToDecimal_length_pos (p % 1000000)
  have hlen : (sixZeros ++ natToDecimal (p % 1000000)).length =
      6 + (natToDecimal (p % 1000000)).length := by simp [sixZeros]; omega
  rw [jsSliceNeg, if_neg (by omega : ¬ digits = 0)]
  constructor
  · show (List.drop _ _).length = digits
    rw [List.length_drop]
    omega
  · intro c hc
    exact isDigitChar_isDigit
      (otpS_digits (p % 1000000) c (List.mem_of_mem_drop hc))

lemma b32Val_eq_none_iff (c : Char) : b32Val c = none ↔ ¬ isBase32Char c := by
  unfold b32Val isBase32Char
  by_cases h1 : 'A' ≤ c ∧ c ≤ 'Z'
  · simp [h1]
  · by_cases h2 : '2' ≤ c ∧ c ≤ '7' <;> simp [h1, h2]

lemma b32DecodeLoop_isSome_of_valid :
    ∀ (cs : List Char) (acc nbits : Nat),
      (∀ c ∈ cs, isBase32Char c ∨ c = '=') →
      (b32DecodeLoop cs acc nbits).isSome = true := by
  intro cs
  induction cs with
  | nil => intro acc nbits _; rfl
  | cons ch cs ih =>
    intro acc nbits hall
    simp only [b32DecodeLoop]
    by_cases he : ch = '='
    · simp only [if_pos he]
      exact ih acc nbits (fun c hc => hall c (List.mem_cons_of_mem _ hc))
    · simp only [if_neg he]
      cases hv : b32Val ch with
      | none =>
        have hbc : isBase32Char ch := by
          rcases hall ch (List.mem_cons_self ch cs) with h | h
          · exact h
          · exact absurd h he
        exact absurd ((b32Val_eq_none_iff ch).mp hv) (by simp [hbc])
      | some v =>
        simp only []
        by_cases h8 : nbits + 5 ≥ 8
        · simp only [if_pos h8]
          have hrec := ih (() |> fun _ => (acc * 32 + v) % 2 ^ (nbits + 5 - 8))
            (nbits + 5 - 8) (fun c hc => hall c (List.mem_cons_of_mem _ hc))
          cases hcs : b32DecodeLoop cs ((acc * 32 + v) % 2 ^ (nbits + 5 - 8))
              (nbits + 5 - 8) with
          | none => rw [hcs] at hrec; exact absurd hrec (by simp)
          | some bs => simp [hcs]
        · simp only [if_neg h8]
          exact ih (acc * 32 + v) (nbits + 5)
            (fun c hc => hall c (List.mem_cons_of_mem _ hc))

lemma b32DecodeLoop_eq_none_of_bad :
    ∀ (cs : List Char) (acc nbits : Nat) (c : Char), c ∈ cs →
      ¬ (isBase32Char c ∨ c = '=') → b32DecodeLoop cs acc nbits = none := by
  intro cs
  induction cs with
  | nil => intro acc nbits c hc _; exact absurd hc (by simp)
  | cons ch cs ih =>
    intro acc nbits c hc hbad
    simp only [b32DecodeLoop]
    rcases List.mem_cons.mp hc with rfl | hc
    · have he : ¬ c = '=' := fun h => hbad (Or.inr h)
      have hb : ¬ isBase32Char c := fun h => hbad (Or.inl h)
      simp only [if_neg he]
      rw [(b32Val_eq_none_iff c).mpr hb]
    · by_cases he : ch = '='
      · simp only [if_pos he]
        exact ih acc nbits c hc hbad
      · simp only [if_neg he]
        cases hv : b32Val ch with
        | none => rfl
        | some v =>
          simp only []
          by_cases h8 : nbits + 5 ≥ 8
          · simp only [if_pos h8]
            rw [ih ((acc * 32 + v) % 2 ^ (nbits + 5 - 8)) (nbits + 5 - 8) c hc hbad]
          · simp only [if_neg h8]
            exact ih (acc * 32 + v) (nbits + 5) c hc hbad

lemma b32DecodeLoop_eq_none_iff (cs : List Char) (acc nbits : Nat) :
    b32DecodeLoop cs acc nbits = none ↔
      ∃ c ∈ cs, ¬ (isBase32Char c ∨ c = '=') := by
  constructor
  · intro h
    by_contra hc
    push_neg at hc
    have hall : ∀ c ∈ cs, isBase32Char c ∨ c = '=' := by
      intro c hmem
      have := hc c hmem
      tauto
    have := b32DecodeLoop_isSome_of_valid cs acc nbits hall
    rw [h] at this
    exact absurd this (by simp)
  · intro ⟨c, hc, hbad⟩
    exact b32DecodeLoop_eq_none_of_bad cs acc nbits c hc hbad

lemma b32DecodeLoop_append_pad :
    ∀ (cs : List Char) (acc nbits n : Nat),
      b32DecodeLoop (cs ++ List.replicate n '=') acc nbits =
        b32DecodeLoop cs acc nbits := by
  intro cs
  induction cs with
  | nil =>
    intro acc nbits n
    induction n generalizing acc nbits with
    | zero => rfl
    | succ n ihn =>
      rw [List.nil_append, List.replicate_succ]
      simp only [b32DecodeLoop, if_pos rfl]
      exact ihn acc nbits
  | cons ch cs ih =>
    intro acc nbits n
    rw [List.cons_append]
    simp only [b32DecodeLoop]
    by_cases he : ch = '='
    · simp only [if_pos he]
      exact ih acc nbits n
    · simp only [if_neg he]
      cases hv : b32Val ch with
      | none => rfl
      | some v =>
        simp only []
        by_cases h8 : nbits + 5 ≥ 8
        · simp only [if_pos h8]
          rw [ih ((acc * 32 + v) % 2 ^ (nbits + 5 - 8)) (nbits + 5 - 8) n]
        · simp only [if_neg h8]
          exact ih (acc * 32 + v) (nbits + 5) n

/-! ### The claims -/

/-- C1: with the base32 encoding of the ASCII secret
`"12345678901234567890"`, the default (SHA-1) hash variant, `period = 30`
and `digits = 6`, `generateTotp` returns `"287082"` at time 59
(counter 1), `"081804"` at time 1111111109 (counter `0x023523EC`),
`"050471"` at time 1111111111 (counter `0x023523ED`) and `"353130"` at
time 20000000000 (counter `0x27BC86AA`). -/
theorem totp_c1_end_to_end_vectors :
    decodeSecret rfcSecretBase32 =
      Except.ok ("12345678901234567890".data.map Char.toNat) ∧
    timeStepCounter 59 30 = 1 ∧
    timeStepCounter 1111111109 30 = 0x023523EC ∧
    timeStepCounter 1111111111 30 = 0x023523ED ∧
    timeStepCounter 20000000000 30 = 0x27BC86AA ∧
    generateTotp "SHA-1" rfcSecretBase32 6 30 59 = Except.ok "287082" ∧
    generateTotp "SHA-1" rfcSecretBase32 6 30 1111111109 = Except.ok "081804" ∧
    generateTotp "SHA-1" rfcSecretBase32 6 30 1111111111 = Except.ok "050471" ∧
    generateTotp "SHA-1" rfcSecretBase32 6 30 20000000000 = Except.ok "353130" :=
  ⟨rfl, rfl, rfl, rfl, rfl, rfl, rfl, rfl, rfl⟩

/-- C2 (counterexample): the claim fails as stated — a successful call with
`digits = 13` returns a 12-character string, because
`('000000' + binary).slice(-digits)` cannot produce more characters than the
padded string holds. -/
theorem totp_c2_counterexample :
    generateTotp "SHA-1" rfcSecretBase32 13 30 59 = Except.ok "000000287082" ∧
    ("000000287082" : String).length ≠ 13 :=
  ⟨rfl, by decide⟩

/-- C2 (amended): for every successful call with `1 ≤ digits ≤ 7` the
returned string has length exactly `digits` and contains only decimal digit
characters.  (For `digits ≥ 8` the result can be shorter than `digits`,
since the padded string `'000000' + binary` has between 7 and 12
characters.) -/
theorem totp_c2_amended (alg secret : String) (digits period time : Nat)
    (otp : String) (h1 : 1 ≤ digits) (h7 : digits ≤ 7)
    (h : generateTotp alg secret digits period time = Except.ok otp) :
    otp.length = digits ∧ ∀ c ∈ otp.data, c.isDigit = true := by
  unfold generateTotp at h
  cases hd : decodeSecret secret with
  | error e =>
    rw [hd] at h
    exact absurd h (by simp)
  | ok key =>
    rw [hd] at h
    simp only [Except.ok.injEq] at h
    rw [← h]
    exact otpFormat_shape _ digits h1 h7

/-- C2 witness: the amended claim applied at the `time = 59` vector. -/
theorem totp_c2_witness :
    ("287082" : String).length = 6 ∧ ∀ c ∈ ("287082" : String).data, c.isDigit = true :=
  totp_c2_amended "SHA-1" rfcSecretBase32 6 30 59 "287082" (by decide) (by decide) rfl

/-- C3: the formatter reduces `P` modulo `1000000` unconditionally and then
right-aligns to `digits` characters.  For `1 ≤ digits ≤ 6` the output equals
`P mod 10^digits` zero-padded to `digits` characters; for `digits > 6` the
output is a zero-extension of the six-digit value — its decimal value is
`P mod 10^6` — rather than `P mod 10^digits` (last conjunct: a concrete
`digits = 7` input where the two disagree). -/
theorem totp_c3_formatter :
    (∀ p digits, 1 ≤ digits → digits ≤ 6 →
      otpFormat p digits =
        String.mk (leftPadZero digits (natToDecimal (p % 10 ^ digits)))) ∧
    (∀ p digits, 6 < digits →
      decValue (otpFormat p digits).data = p % 1000000) ∧
    (∃ p digits, 6 < digits ∧
      otpFormat p digits ≠
        String.mk (leftPadZero digits (natToDecimal (p % 10 ^ digits)))) := by
  refine ⟨?_, ?_, ⟨1234567, 7, by omega, by decide⟩⟩
  · intro p digits h1 h6
    have hpos := natToDecimal_length_pos (p % 1000000)
    have hlenS : (sixZeros ++ natToDecimal (p % 1000000)).length =
        6 + (natToDecimal (p % 1000000)).length := by simp [sixZeros]; omega
    have hmodlt : p % 10 ^ digits < 10 ^ digits :=
      Nat.mod_lt _ (Nat.pos_pow_of_pos digits (by omega))
    have hulen : (natToDecimal (p % 10 ^ digits)).length ≤ digits :=
      natToDecimal_length_le _ digits h1 hmodlt
    unfold otpFormat
    congr 1
    rw [jsSliceNeg, if_neg (by omega : ¬ digits = 0)]
    apply decValue_ext
    · intro c hc
      exact otpS_digits (p % 1000000) c (List.mem_of_mem_drop hc)
    · intro c hc
      unfold leftPadZero at hc
      rcases List.mem_append.mp hc with hc | hc
      · rw [List.eq_of_mem_replicate hc]
        exact zeroChar_isDigitChar
      · exact natToDecimal_digits _ c hc
    · have h6len : sixZeros.length = 6 := rfl
      simp only [List.length_drop, leftPadZero, List.length_append,
        List.length_replicate, h6len]
      omega
    · rw [decValue_drop _ _ (otpS_digits (p % 1000000))]
      rw [List.length_drop, decValue_otpS]
      have hdr : (sixZeros ++ natToDecimal (p % 1000000)).length -
          ((sixZeros ++ natToDecimal (p % 1000000)).length - digits) = digits := by
        omega
      rw [hdr]
      unfold leftPadZero
      rw [decValue_append, decValue_replicate_zero, decValue_natToDecimal]
      have h10 : (1000000 : Nat) = 10 ^ 6 := by norm_num
      rw [h10, Nat.mod_mod_of_dvd p (pow_dvd_pow 10 h6)]
      ring
  · intro p digits h6
    show decValue (jsSliceNeg digits (sixZeros ++ natToDecimal (p % 1000000))) =
      p % 1000000
    have hpos := natToDecimal_length_pos (p % 1000000)
    have hlenS : (sixZeros ++ natToDecimal (p % 1000000)).length =
        6 + (natToDecimal (p % 1000000)).length := by simp [sixZeros]; omega
    rw [jsSliceNeg, if_neg (by omega : ¬ digits = 0)]
    rcases le_or_lt (sixZeros ++ natToDecimal (p % 1000000)).length digits
      with hc | hc
    · rw [Nat.sub_eq_zero_of_le hc, List.drop_zero, decValue_otpS]
    · rw [decValue_drop _ _ (otpS_digits (p % 1000000))]
      rw [List.length_drop, decValue_otpS]
      have hdr : (sixZeros ++ natToDecimal (p % 1000000)).length -
          ((sixZeros ++ natToDecimal (p % 1000000)).length - digits) = digits := by
        omega
      rw [hdr]
      apply Nat.mod_eq_of_lt
      calc p % 1000000 < 1000000 := Nat.mod_lt _ (by omega)
        _ ≤ 10 ^ digits := by
          have : (10 : Nat) ^ 7 ≤ 10 ^ digits :=
            Nat.pow_le_pow_right (by omega) (by omega)
          omega

/-- C3 witness: the `digits ≤ 6` branch applied at `P = 94287082`,
`digits = 6`, where the padded value evaluates to `"287082"`. -/
theorem totp_c3_witness :
    otpFormat 94287082 6 =
      String.mk (leftPadZero 6 (natToDecimal (94287082 % 10 ^ 6))) ∧
    String.mk (leftPadZero 6 (natToDecimal (94287082 % 10 ^ 6))) = "287082" :=
  ⟨totp_c3_formatter.1 94287082 6 (by decide) (by decide), by decide⟩

/-- C4: the code performs no parameter validation.  With `digits = 0` the
call still succeeds and returns the entire 12-character padded string, and
with `period = 0` the counter collapses to 0 (the JS division produces
`Infinity`, which the 32-bit store coerces to 0) and the counter-0 OTP is
returned; no `InvalidParameterError` is raised. -/
theorem totp_c4_no_parameter_validation :
    generateTotp "SHA-1" rfcSecretBase32 0 30 59 = Except.ok "000000287082" ∧
    generateTotp "SHA-1" rfcSecretBase32 6 0 59 = Except.ok "755224" :=
  ⟨rfl, rfl⟩

/-- C5: decoding the secret fails exactly when the normalized secret
(upper-cased, `'='`-padded to a multiple-of-8 length) contains a character
outside `A–Z2–7=`, or when it decodes to zero bytes; otherwise decoding
yields exactly the bytes produced by the base32 decode, and trailing `'='`
padding contributes no output bytes. -/
theorem totp_c5_decode_characterization (secret : String) :
    ((∃ e, decodeSecret secret = Except.error e) ↔
      ((∃ c ∈ normalizeSecret secret, ¬ (isBase32Char c ∨ c = '=')) ∨
        b32DecodeLoop (normalizeSecret secret) 0 0 = some [])) ∧
    (∀ bytes, decodeSecret secret = Except.ok bytes →
      b32DecodeLoop (normalizeSecret secret) 0 0 = some bytes) ∧
    (∀ n, b32DecodeLoop (normalizeSecret secret ++ List.replicate n '=') 0 0 =
      b32DecodeLoop (normalizeSecret secret) 0 0) := by
  refine ⟨?_, ?_, fun n => b32DecodeLoop_append_pad _ 0 0 n⟩
  · unfold decodeSecret
    cases hloop : b32DecodeLoop (normalizeSecret secret) 0 0 with
    | none =>
      apply iff_of_true
      · exact ⟨.decodeError, rfl⟩
      · exact Or.inl ((b32DecodeLoop_eq_none_iff _ 0 0).mp hloop)
    | some bs =>
      cases bs with
      | nil =>
        apply iff_of_true
        · exact ⟨.decodeError, rfl⟩
        · exact Or.inr rfl
      | cons b bs' =>
        apply iff_of_false
        · intro ⟨e, he⟩
          simp at he
        · intro hor
          rcases hor with hbad | hnil
          · rw [(b32DecodeLoop_eq_none_iff _ 0 0).mpr hbad] at hloop
            exact absurd hloop (by simp)
          · exact absurd hnil (by simp)
  · intro bytes h
    unfold decodeSecret at h
    cases hloop : b32DecodeLoop (normalizeSecret secret) 0 0 with
    | none => rw [hloop] at h; simp at h
    | some bs =>
      cases bs with
      | nil => rw [hloop] at h; simp at h
      | cons b bs' =>
        rw [hloop] at h
        simp only [Except.ok.injEq] at h
        rw [h]

/-- C5 witness: the secret `"1"` (normalized to `"1======="`) contains the
non-alphabet character `'1'` and therefore fails with `DecodeError`. -/
theorem totp_c5_witness : ∃ e, decodeSecret "1" = Except.error e :=
  (totp_c5_decode_characterization "1").1.mpr
    (Or.inl ⟨'1', by decide, by decide⟩)

/-- C6: the `algorithm` parameter is never consulted: a call with the
unsupported identifier `"MD5"` does not fail with
`UnsupportedAlgorithmError` — it silently computes the SHA-1 OTP. -/
theorem totp_c6_algorithm_ignored :
    generateTotp "MD5" rfcSecretBase32 6 30 59 = Except.ok "287082" :=
  rfl

/-- C7: dynamic truncation takes `offset` from the low nibble of the last
digest byte, reads the 4 bytes at `offset` as an unsigned 32-bit big-endian
integer (a value below `2^32` for byte-valued digests), clears the most
significant bit (equivalently: reduces modulo `2^31`), and returns a value
in `[0, 2^31 - 1]`. -/
theorem totp_c7_dynamic_truncation (digest : List Nat)
    (hb : ∀ b ∈ digest, b < 256)
    (hlen : (digest.getLastD 0 &&& 15) + 4 ≤ digest.length) :
    getUint32BE digest (digest.getLastD 0 &&& 15) < 2 ^ 32 ∧
    dynamicTruncate digest =
      getUint32BE digest (digest.getLastD 0 &&& 15) % 2 ^ 31 ∧
    dynamicTruncate digest ≤ 2 ^ 31 - 1 := by
  have hgetD : ∀ i : Nat, digest.getD i 0 < 256 := by
    intro i
    rcases Nat.lt_or_ge i digest.length with hi | hi
    · rw [List.getD_eq_getElem digest 0 hi]
      exact hb _ (List.getElem_mem hi)
    · rw [List.getD_eq_default digest 0 hi]
      norm_num
  refine ⟨?_, ?_, ?_⟩
  · unfold getUint32BE
    have h0 := hgetD (digest.getLastD 0 &&& 15)
    have h1 := hgetD ((digest.getLastD 0 &&& 15) + 1)
    have h2 := hgetD ((digest.getLastD 0 &&& 15) + 2)
    have h3 := hgetD ((digest.getLastD 0 &&& 15) + 3)
    omega
  · unfold dynamicTruncate
    have h : (2147483647 : Nat) = 2 ^ 31 - 1 := by norm_num
    rw [h, Nat.and_pow_two_sub_one_eq_mod]
  · unfold dynamicTruncate
    exact le_trans Nat.and_le_right (by norm_num)

/-- C7 witness: a concrete 20-byte digest (last byte `232`, so
`offset = 8`). -/
theorem totp_c7_witness :
    (∀ b ∈ [18, 198, 82, 89, 231, 19, 154, 205, 181, 33, 19, 158,
      202, 50, 134, 244, 119, 118, 55, 232], b < 256) ∧
    ((([18, 198, 82, 89, 231, 19, 154, 205, 181, 33, 19, 158, 202, 50, 134,
      244, 119, 118, 55, 232] : List Nat).getLastD 0 &&& 15) + 4 ≤ 20) ∧
    (getUint32BE [18, 198, 82, 89, 231, 19, 154, 205, 181, 33, 19, 158,
        202, 50, 134, 244, 119, 118, 55, 232]
        (([18, 198, 82, 89, 231, 19, 154, 205, 181, 33, 19, 158, 202, 50,
          134, 244, 119, 118, 55, 232] : List Nat).getLastD 0 &&& 15) < 2 ^ 32 ∧
      dynamicTruncate [18, 198, 82, 89, 231, 19, 154, 205, 181, 33, 19, 158,
        202, 50, 134, 244, 119, 118, 55, 232] =
        getUint32BE [18, 198, 82, 89, 231, 19, 154, 205, 181, 33, 19, 158,
          202, 50, 134, 244, 119, 118, 55, 232]
          (([18, 198, 82, 89, 231, 19, 154, 205, 181, 33, 19, 158, 202, 50,
            134, 244, 119, 118, 55, 232] : List Nat).getLastD 0 &&& 15) % 2 ^ 31 ∧
      dynamicTruncate [18, 198, 82, 89, 231, 19, 154, 205, 181, 33, 19, 158,
        202, 50, 134, 244, 119, 118, 55, 232] ≤ 2 ^ 31 - 1) :=
  ⟨by decide, by decide,
    totp_c7_dynamic_truncation
      [18, 198, 82, 89, 231, 19, 154, 205, 181, 33, 19, 158,
        202, 50, 134, 244, 119, 118, 55, 232] (by decide) (by decide)⟩

/-- C8: for every counter below `2^32`, the encoded buffer is exactly 8
bytes, big-endian, with the high-order 4 bytes zero and the low-order 4
bytes holding the counter value. -/
theorem totp_c8_counter_encoding (c : Nat) (h : c < 2 ^ 32) :
    timeBytesOf c =
      [0, 0, 0, 0, c / 2 ^ 24 % 2 ^ 8, c / 2 ^ 16 % 2 ^ 8,
        c / 2 ^ 8 % 2 ^ 8, c % 2 ^ 8] ∧
    (timeBytesOf c).length = 8 ∧
    (timeBytesOf c).take 4 = [0, 0, 0, 0] ∧
    beValue ((timeBytesOf c).drop 4) = c := by
  have hc : c % 4294967296 = c := Nat.mod_eq_of_lt (by norm_num at h ⊢; omega)
  have heq : timeBytesOf c =
      [0, 0, 0, 0, c / 2 ^ 24 % 2 ^ 8, c / 2 ^ 16 % 2 ^ 8,
        c / 2 ^ 8 % 2 ^ 8, c % 2 ^ 8] := by
    simp only [timeBytesOf, hc, Nat.shiftRight_eq_div_pow, and255_eq_mod]
  refine ⟨heq, by rw [heq]; rfl, by rw [heq]; rfl, ?_⟩
  rw [heq]
  show beValue [c / 2 ^ 24 % 2 ^ 8, c / 2 ^ 16 % 2 ^ 8, c / 2 ^ 8 % 2 ^ 8, c % 2 ^ 8] = c
  simp only [beValue, List.foldl]
  omega

/-- C8 witness: the counter of the `time = 20000000000` vector. -/
theorem totp_c8_witness :
    timeBytesOf 666666666 =
      [0, 0, 0, 0, 666666666 / 2 ^ 24 % 2 ^ 8, 666666666 / 2 ^ 16 % 2 ^ 8,
        666666666 / 2 ^ 8 % 2 ^ 8, 666666666 % 2 ^ 8] ∧
    (timeBytesOf 666666666).length = 8 ∧
    (timeBytesOf 666666666).take 4 = [0, 0, 0, 0] ∧
    beValue ((timeBytesOf 666666666).drop 4) = 666666666 :=
  totp_c8_counter_encoding 666666666 (by norm_num)

/-- C9: for `period > 0` and `t1 < t2`, two times in the same period bucket
`[k*p, (k+1)*p)` have equal counters, and a time in the immediately
following bucket has counter exactly one larger. -/
theorem totp_c9_counter_monotonicity (p t1 t2 k : Nat) (hp : 0 < p)
    (hlt : t1 < t2) :
    (inBucket p k t1 → inBucket p k t2 →
      timeStepCounter t1 p = timeStepCounter t2 p) ∧
    (inBucket p k t1 → inBucket p (k + 1) t2 →
      timeStepCounter t2 p = timeStepCounter t1 p + 1) := by
  have hdiv : ∀ t j, inBucket p j t → timeStepCounter t p = j := by
    intro t j hj
    exact Nat.div_eq_of_lt_le hj.1 hj.2
  constructor
  · intro h1 h2
    rw [hdiv t1 k h1, hdiv t2 k h2]
  · intro h1 h2
    rw [hdiv t1 k h1, hdiv t2 (k + 1) h2]

/-- C9 witness: `period = 30`, times 31 and 59 share bucket 1, and time 60
lies in bucket 2. -/
theorem totp_c9_witness :
    (timeStepCounter 31 30 = timeStepCounter 59 30) ∧
    (timeStepCounter 60 30 = timeStepCounter 31 30 + 1) :=
  ⟨(totp_c9_counter_monotonicity 30 31 59 1 (by decide) (by decide)).1
      (by decide) (by decide),
    (totp_c9_counter_monotonicity 30 31 60 1 (by decide) (by decide)).2
      (by decide) (by decide)⟩

/-- C10: two calls that agree on secret, digits, period and time but pass
any two values for `algorithm` return identical results — the
implementation always uses the SHA-1 keyed hash. -/
theorem totp_c10_independent_of_algorithm (a1 a2 secret : String)
    (digits period time : Nat) :
    generateTotp a1 secret digits period time =
      generateTotp a2 secret digits period time :=
  rfl
